import Mathlib

/-!
Verification of the sheeteasy note-drill engine: a shallow embedding of the
question-selection, mistake-ledger, range-filter and scoring logic of
src/src/data/notes.ts (note catalog plus application logic), with theorems
settling the stated properties.  Randomness (Math.random-driven choices) is
modelled by explicit oracle parameters; the biased sort-based shuffle is
modelled as an arbitrary permutation oracle.
-/

/-- Clef enum of the source: 'treble' | 'bass'. -/
inductive Clef where
  | treble
  | bass
deriving DecidableEq, Repr

/-- NoteLetter of the source: 'A' | 'B' | 'C' | 'D' | 'E' | 'F' | 'G'. -/
inductive NoteLetter where
  | A | B | C | D | E | F | G
deriving DecidableEq, Repr

/-- Rendering of a NoteLetter as the one-character string the source uses. -/
def letterStr : NoteLetter → String
  | .A => "A"
  | .B => "B"
  | .C => "C"
  | .D => "D"
  | .E => "E"
  | .F => "F"
  | .G => "G"

/-- NoteDefinition of the source: id, letter, octave and the authored vertical
offset stepsFromTop (a half-integer, kept as a rational). -/
structure NoteDefinition where
  id : String
  letter : NoteLetter
  octave : Int
  stepsFromTop : ℚ
deriving DecidableEq, Repr

/-- createNote of the source: derives the id as letter followed by octave. -/
def createNote (letter : NoteLetter) (octave : Int) (stepsFromTop : ℚ) :
    NoteDefinition :=
  { id := letterStr letter ++ toString octave
    letter := letter
    octave := octave
    stepsFromTop := stepsFromTop }

/-- TREBLE_NOTES of the source, authored high to low. -/
def TREBLE_NOTES : List NoteDefinition :=
  [ createNote .A 5 (-1),
    createNote .G 5 (-(1/2)),
    createNote .F 5 0,
    createNote .E 5 (1/2),
    createNote .D 5 1,
    createNote .C 5 (3/2),
    createNote .B 4 2,
    createNote .A 4 (5/2),
    createNote .G 4 3,
    createNote .F 4 (7/2),
    createNote .E 4 4,
    createNote .D 4 (9/2),
    createNote .C 4 5,
    createNote .B 3 (11/2),
    createNote .A 3 6 ]

/-- BASS_NOTES of the source, authored high to low. -/
def BASS_NOTES : List NoteDefinition :=
  [ createNote .C 4 (-1),
    createNote .B 3 (-(1/2)),
    createNote .A 3 0,
    createNote .G 3 (1/2),
    createNote .F 3 1,
    createNote .E 3 (3/2),
    createNote .D 3 2,
    createNote .C 3 (5/2),
    createNote .B 2 3,
    createNote .A 2 (7/2),
    createNote .G 2 4,
    createNote .F 2 (9/2),
    createNote .E 2 5,
    createNote .D 2 (11/2),
    createNote .C 2 6 ]

/-- NOTE_COLLECTIONS of the source: the catalog of each clef. -/
def NOTE_COLLECTIONS : Clef → List NoteDefinition
  | .treble => TREBLE_NOTES
  | .bass => BASS_NOTES

/-- NOTE_LETTERS of the source: the full 7-letter alphabet. -/
def NOTE_LETTERS : List NoteLetter := [.A, .B, .C, .D, .E, .F, .G]

/-- NOTE_LETTER_TO_SEMITONE of the source: the fixed pitch-class table. -/
def NOTE_LETTER_TO_SEMITONE : NoteLetter → Int
  | .C => 0
  | .D => 2
  | .E => 4
  | .F => 5
  | .G => 7
  | .A => 9
  | .B => 11

/-- getNoteMidi of the source: octave * 12 + semitone class. -/
def getNoteMidi (note : NoteDefinition) : Int :=
  note.octave * 12 + NOTE_LETTER_TO_SEMITONE note.letter

/-- MIDDLE_C_MIDI of the source: the pitch value of C4. -/
def MIDDLE_C_MIDI : Int := (createNote .C 4 5).octave * 12 + NOTE_LETTER_TO_SEMITONE .C

/-- rangeBounds of the source: the inclusive pitch window for a range level,
anchored at middle C, span rangeLevel * 12. -/
def rangeBounds (rangeLevel : Nat) : Int × Int :=
  let span : Int := (rangeLevel : Int) * 12
  (MIDDLE_C_MIDI - span, MIDDLE_C_MIDI + span)

/-- isNoteWithinRange of the source: midi within the inclusive bounds. -/
def isNoteWithinRange (rangeLevel : Nat) (note : NoteDefinition) : Bool :=
  let midi := getNoteMidi note
  decide ((rangeBounds rangeLevel).1 ≤ midi) && decide (midi ≤ (rangeBounds rangeLevel).2)

/-- Candidate pool of one clef after range filtering, as prepareQuestion
computes it: NOTE_COLLECTIONS of the clef filtered by isNoteWithinRange. -/
def inRangePool (rangeLevel : Nat) (clef : Clef) : List NoteDefinition :=
  (NOTE_COLLECTIONS clef).filter (isNoteWithinRange rangeLevel)

/-- String of a clef as the source writes it into ledger keys. -/
def clefStr : Clef → String
  | .treble => "treble"
  | .bass => "bass"

/-- getNoteKey of the source: the ledger key string clef:noteId. -/
def getNoteKey (clef : Clef) (note : NoteDefinition) : String :=
  clefStr clef ++ ":" ++ note.id

/-- MistakeRecord of the source: a miss count and the last-miss timestamp,
both JavaScript numbers, embedded as integers. -/
structure MistakeRecord where
  count : Int
  lastMissedAt : Int
deriving DecidableEq, Repr

/-- MistakeMap of the source: a JavaScript object keyed by note-key strings,
embedded as an association list in key-insertion order (object keys are
unique; the operations below preserve that). -/
abbrev MistakeMap := List (String × MistakeRecord)

/-- Object property read of the source (mistakes[key]): the value at the
first matching key, if any. -/
def mget : MistakeMap → String → Option MistakeRecord
  | [], _ => none
  | (k', v) :: rest, k => if k' = k then some v else mget rest k

/-- Object property write of the source (spread copy with [key] assigned):
replaces the value at an existing key in place, else appends the key last. -/
def mset : MistakeMap → String → MistakeRecord → MistakeMap
  | [], k, v => [(k, v)]
  | (k', v') :: rest, k, v =>
      if k' = k then (k, v) :: rest else (k', v') :: mset rest k v

/-- Object property deletion of the source (delete next[key]). -/
def mdel : MistakeMap → String → MistakeMap
  | [], _ => []
  | (k', v') :: rest, k => if k' = k then rest else (k', v') :: mdel rest k

/-- Count the source reads with prev[key]?.count ?? 0. -/
def countOf (m : MistakeMap) (k : String) : Int :=
  ((mget m k).map MistakeRecord.count).getD 0

/-- Number of entries carrying a given key (an embedded JavaScript object
always has at most one). -/
def countKey : MistakeMap → String → Nat
  | [], _ => 0
  | (k', _) :: rest, k => (if k' = k then 1 else 0) + countKey rest k

/-- Miss path of submitAnswer in the source: spread copy with the key set to
count prev+1 (0 when absent) and lastMissedAt set to the current time. -/
def recordMiss (m : MistakeMap) (k : String) (now : Int) : MistakeMap :=
  mset m k { count := countOf m k + 1, lastMissedAt := now }

/-- Hit path of submitAnswer in the source: guarded by the truthiness of
mistakes[key]?.count; decrements the count, deleting the entry when the
decremented count is at most 0. -/
def recordHit (m : MistakeMap) (k : String) : MistakeMap :=
  match mget m k with
  | none => m
  | some e =>
      if e.count ≠ 0 then
        let nextCount := e.count - 1
        if nextCount ≤ 0 then mdel m k
        else mset m k { e with count := nextCount }
      else m

/-- Iterated recordMiss; the i-th miss happens at time ts i. -/
def recordMissN (m : MistakeMap) (k : String) (ts : Nat → Int) : Nat → MistakeMap
  | 0 => m
  | n + 1 => recordMiss (recordMissN m k ts n) k (ts n)

/-- Iterated recordHit. -/
def recordHitN (m : MistakeMap) (k : String) : Nat → MistakeMap
  | 0 => m
  | n + 1 => recordHitN (recordHit m k) k n

/-- Take the longest prefix whose characters satisfy p, returning it and the
rest (the character-list span the parsing model uses). -/
def spanP (p : Char → Bool) : List Char → List Char × List Char
  | [] => ([], [])
  | c :: cs =>
      if p c then
        let r := spanP p cs
        (c :: r.1, r.2)
      else ([], c :: cs)

/-- parseNoteKey of the source: split the key on the colon, read the clef
from the first part and look the note id up in that clef's catalog; any
missing part, unknown clef or unknown id yields none. -/
def parseNoteKey (key : String) : Option (Clef × NoteDefinition) :=
  let r1 := spanP (fun c => decide (c ≠ ':')) key.data
  match r1.2 with
  | [] => none
  | _ :: rest2 =>
      let clefPart : String := ⟨r1.1⟩
      let noteId : String := ⟨(spanP (fun c => decide (c ≠ ':')) rest2).1⟩
      if clefPart = "" ∨ noteId = "" then none
      else
        let clef? : Option Clef :=
          if clefPart = "treble" then some .treble
          else if clefPart = "bass" then some .bass
          else none
        match clef? with
        | none => none
        | some clef =>
            match (NOTE_COLLECTIONS clef).find? (fun n => decide (n.id = noteId)) with
            | none => none
            | some note => some (clef, note)

/-- availableMistakes of the source: ledger entries with truthy count whose
key parses back to an in-range note of its clef. -/
def availableMistakes (m : MistakeMap) (rangeLevel : Nat) :
    List (String × MistakeRecord) :=
  m.filter (fun p =>
    if p.2.count = 0 then false
    else
      match parseNoteKey p.1 with
      | some (_, note) => isNoteWithinRange rangeLevel note
      | none => false)

/-- AnswerOption of the source: a letter and its display label. -/
structure AnswerOption where
  letter : NoteLetter
  label : String
deriving DecidableEq, Repr

/-- Question of the source: clef, note and the four answer options. -/
structure Question where
  clef : Clef
  note : NoteDefinition
  options : List AnswerOption
deriving DecidableEq, Repr

/-- Practice mode of the source: 'all' (uniform) or 'mistakes' (weighted). -/
inductive Mode where
  | all
  | mistakes
deriving DecidableEq, Repr

/-- Shuffle oracle: the source shuffles by sorting with a random comparator,
which always yields some permutation of its input; an oracle stands for the
permutation one Math.random sequence produces. -/
def Shuffle := List NoteLetter → List NoteLetter

/-- buildOptionSet of the source: shuffle the 6 letters differing from the
correct one, keep 3, shuffle them together with the correct letter, and label
each letter with itself.  s1 and s2 are the two shuffle draws. -/
def buildOptionSet (correct : NoteLetter) (s1 s2 : Shuffle) : List AnswerOption :=
  let incorrect := (s1 (NOTE_LETTERS.filter (fun l => decide (l ≠ correct)))).take 3
  let combined := s2 (correct :: incorrect)
  combined.map (fun letter => { letter := letter, label := letterStr letter })

/-- buildQuestion of the source. -/
def buildQuestion (clef : Clef) (note : NoteDefinition) (s1 s2 : Shuffle) :
    Question :=
  { clef := clef, note := note, options := buildOptionSet note.letter s1 s2 }

/-- Weighted candidate list built inside pickWeightedNote: the in-range notes
whose ledger entry has truthy count, paired with that count as weight. -/
def weightedEntries (clef : Clef) (mistakes : MistakeMap)
    (availableNotes : List NoteDefinition) : List (NoteDefinition × Int) :=
  availableNotes.filterMap (fun note =>
    match mget mistakes (getNoteKey clef note) with
    | some e => if e.count ≠ 0 then some (note, e.count) else none
    | none => none)

/-- Roulette walk of pickWeightedNote: subtract each weight from the
threshold and stop at the first entry driving it to 0 or below. -/
def weightedWalk : List (NoteDefinition × Int) → ℚ → Option NoteDefinition
  | [], _ => none
  | (n, w) :: rest, t =>
      if t - (w : ℚ) ≤ 0 then some n else weightedWalk rest (t - (w : ℚ))

/-- pickWeightedNote of the source.  r stands for the Math.random draw in
[0, 1); the threshold starts at r times the total weight and the walk falls
back to the last weighted entry when rounding overshoots. -/
def pickWeightedNote (clef : Clef) (mistakes : MistakeMap)
    (availableNotes : List NoteDefinition) (r : ℚ) : Option NoteDefinition :=
  match weightedEntries clef mistakes availableNotes with
  | [] => none
  | w0 :: ws =>
      match weightedWalk (w0 :: ws)
          (r * (((w0 :: ws).foldl (fun s e => s + e.2) (0 : Int) : Int) : ℚ)) with
      | some n => some n
      | none => ((w0 :: ws).getLast?).map Prod.fst

/-- Random oracles one prepareQuestion call draws from, indexed by the
attempt counter: the clef pick, the Math.random value of pickWeightedNote,
the index randomness of randomItem over the pool, and the two option
shuffles. -/
structure RandomSource where
  clefChoice : Nat → Clef
  weightPick : Nat → ℚ
  notePick : Nat → Nat
  shuffle1 : Nat → Shuffle
  shuffle2 : Nat → Shuffle

/-- One loop attempt of prepareQuestion: draw a clef, filter its catalog by
the range, and pick the note — weighted first in mistakes mode, otherwise
(or when no weighted candidate exists) uniformly from the pool.  none when
the pool is empty (the attempt is skipped). -/
def attemptDraw (rangeLevel : Nat) (mode : Mode) (mistakes : MistakeMap)
    (rand : RandomSource) (i : Nat) : Option (Clef × NoteDefinition) :=
  match inRangePool rangeLevel (rand.clefChoice i) with
  | [] => none
  | n0 :: ns =>
      some (rand.clefChoice i,
        match
          (match mode with
           | Mode.mistakes =>
               pickWeightedNote (rand.clefChoice i) mistakes (n0 :: ns)
                 (rand.weightPick i)
           | Mode.all => none) with
        | some n => n
        | none => (n0 :: ns).getD (rand.notePick i % (n0 :: ns).length) n0)

/-- While loop of prepareQuestion: attempts counts up toward 6; after each
drawn candidate the loop breaks when there was no previous question, the
candidate differs from it in clef or note id, or five attempts are spent.
Structural fuel mirrors the counter (the loop body always increments
attempts, so fuel 6 with attempts 0 is exact). -/
def prepLoop (rangeLevel : Nat) (mode : Mode) (mistakes : MistakeMap)
    (current : Option (Clef × String)) (rand : RandomSource) :
    Nat → Nat → Option Question → Option Question
  | 0, _, candidate => candidate
  | fuel + 1, attempts, candidate =>
      if attempts < 6 then
        match attemptDraw rangeLevel mode mistakes rand attempts with
        | none =>
            prepLoop rangeLevel mode mistakes current rand fuel (attempts + 1) candidate
        | some (clef, note) =>
            if current ≠ some (clef, note.id) ∨ 5 ≤ attempts + 1 then
              some (buildQuestion clef note (rand.shuffle1 attempts)
                (rand.shuffle2 attempts))
            else
              prepLoop rangeLevel mode mistakes current rand fuel (attempts + 1)
                (some (buildQuestion clef note (rand.shuffle1 attempts)
                  (rand.shuffle2 attempts)))
      else candidate

/-- prepareQuestion of the source, as a function of the mode it is invoked
with, the ledger, the previous question's clef and note id (questionRef),
and the random oracles. -/
def prepareQuestion (rangeLevel : Nat) (mode : Mode) (mistakes : MistakeMap)
    (current : Option (Clef × String)) (rand : RandomSource) : Option Question :=
  prepLoop rangeLevel mode mistakes current rand 6 0 none

/-- Clef and note id of a question, the projection the anti-repeat check
compares. -/
def questionPair (q : Question) : Clef × String := (q.clef, q.note.id)

/-- Clef and note id drawn by one loop attempt, when its pool is nonempty. -/
def drawnPair (rangeLevel : Nat) (mode : Mode) (mistakes : MistakeMap)
    (rand : RandomSource) (i : Nat) : Option (Clef × String) :=
  (attemptDraw rangeLevel mode mistakes rand i).map (fun p => (p.1, p.2.id))

/-- Session stats of the source: total attempts and correct answers. -/
structure Stats where
  total : Nat
  correct : Nat
deriving DecidableEq, Repr

/-- Accuracy of the source: round(correct / total * 100) when total is
truthy, else the null rendered as a placeholder. -/
def accuracy (stats : Stats) : Option Int :=
  if stats.total = 0 then none
  else some (round ((stats.correct : ℚ) / (stats.total : ℚ) * 100))

/-- Feedback of the source: correct carries its message; incorrect carries
the message and the correct letter. -/
inductive Feedback where
  | correct (message : String)
  | incorrect (message : String) (correctLetter : NoteLetter)
deriving DecidableEq, Repr

/-- Application state of the source component (the React state cells the
claims touch). -/
structure AppState where
  mode : Mode
  question : Option Question
  selectedIndex : Option Nat
  feedback : Option Feedback
  stats : Stats
  mistakes : MistakeMap
  isRevealing : Bool
  rangeLevel : Nat
deriving DecidableEq

/-- submitAnswer of the source: a no-op while no question is shown or the
reveal window is open; otherwise records the attempt, sets feedback and
updates the ledger (miss increments, hit decrements toward deletion).  The
deferred 900ms advance to the next question is a separate later event and is
not part of this synchronous transition. -/
def submitAnswer (s : AppState) (index : Nat) (now : Int) : AppState :=
  match s.question with
  | none => s
  | some question =>
      if s.isRevealing then s
      else
        match question.options[index]? with
        | none => s
        | some selectedOption =>
            let isCorrect := selectedOption.letter = question.note.letter
            let stats' : Stats :=
              { total := s.stats.total + 1
                correct := s.stats.correct + (if isCorrect then 1 else 0) }
            let key := getNoteKey question.clef question.note
            if isCorrect then
              { s with
                selectedIndex := some index
                isRevealing := true
                stats := stats'
                feedback := some (.correct (letterStr selectedOption.letter ++ " ✅"))
                mistakes := recordHit s.mistakes key }
            else
              { s with
                selectedIndex := some index
                isRevealing := true
                stats := stats'
                feedback := some (.incorrect
                  ("正確答案是 " ++ letterStr question.note.letter ++
                    toString question.note.octave)
                  question.note.letter)
                mistakes := recordMiss s.mistakes key now }

/-- State update at the end of prepareQuestion: when a candidate was drawn,
install it and clear selection, feedback and the reveal flag. -/
def applyPrepared (s : AppState) (q? : Option Question) : AppState :=
  match q? with
  | some q =>
      { s with
        question := some q
        selectedIndex := none
        feedback := none
        isRevealing := false }
  | none => s

/-- Range-change path of the source: the select stores the new level, and
the effect keyed on rangeLevel sets the mode back to 'all' and runs
prepareQuestion('all') against the new range. -/
def onRangeChange (s : AppState) (lvl : Nat) (rand : RandomSource) : AppState :=
  let s1 := { s with rangeLevel := lvl, mode := Mode.all }
  applyPrepared s1
    (prepareQuestion lvl Mode.all s1.mistakes (s1.question.map questionPair) rand)

/-- Ledger invariant of the spec: every entry present in the mistake map has
count at least 1. -/
def CountsPos (m : MistakeMap) : Prop := ∀ p ∈ m, 1 ≤ p.2.count

instance (m : MistakeMap) : Decidable (CountsPos m) :=
  inferInstanceAs (Decidable (∀ p ∈ m, 1 ≤ p.2.count))

/-- Constant random source: always the given clef, threshold 0, index 0, and
identity shuffles. -/
def constSource (c : Clef) : RandomSource :=
  { clefChoice := fun _ => c
    weightPick := fun _ => 0
    notePick := fun _ => 0
    shuffle1 := fun _ => id
    shuffle2 := fun _ => id }

/-!
Persistence model.  The source's loadMistakes/persistMistakes delegate to
the platform's window.localStorage and JSON.parse/JSON.stringify, which are
not part of the repository.  Modelled from the spec: "persist/read a
mapping" under a single key, "serialized as JSON-compatible text", load
"on missing or corrupt data, returns an empty mapping without raising".
Storage is an optional string (getItem returns null or the stored text);
the JSON pair is modelled by a concrete serializer producing exactly the
canonical JSON text JSON.stringify emits for a mistake map, and a strict
parser of that canonical fragment (real JSON.parse is more lenient about
whitespace and, because the source casts the parsed value unchecked, about
shapes; those blobs are never produced by the app and are outside the
claims).  Logging of a parse failure is an I/O effect outside the model.
-/

/-- Double-quote character of the JSON text. -/
def dq : Char := Char.ofNat 34

/-- Opening brace character of the JSON text. -/
def obr : Char := Char.ofNat 123

/-- Closing brace character of the JSON text. -/
def cbr : Char := Char.ofNat 125

/-- Digit character for a value below 10. -/
def digitChar (d : Nat) : Char := Char.ofNat (48 + d)

/-- Decimal digits of a natural number, most significant first; the fuel is
an upper bound on the number (dividing by 10 always stays under it). -/
def natDigitsAux : Nat → Nat → List Char → List Char
  | 0, n, acc => digitChar n :: acc
  | fuel + 1, n, acc =>
      if n < 10 then digitChar n :: acc
      else natDigitsAux fuel (n / 10) (digitChar (n % 10) :: acc)

/-- Decimal digits of a natural number, most significant first. -/
def natDigits (n : Nat) : List Char := natDigitsAux n n []

/-- Canonical JSON text of an integer (a minus sign then digits). -/
def encInt (n : Int) : List Char :=
  if n < 0 then '-' :: natDigits n.natAbs else natDigits n.toNat

/-- Canonical JSON text of a MistakeRecord, fields in insertion order. -/
def encRecord (r : MistakeRecord) : List Char :=
  [obr, dq] ++ "count".data ++ [dq, ':'] ++ encInt r.count ++
    [',', dq] ++ "lastMissedAt".data ++ [dq, ':'] ++ encInt r.lastMissedAt ++ [cbr]

/-- Canonical JSON text of one map entry: the quoted key, a colon, the
record. -/
def encEntry (e : String × MistakeRecord) : List Char :=
  [dq] ++ e.1.data ++ [dq, ':'] ++ encRecord e.2

/-- Canonical JSON text of the entries of a map, comma separated. -/
def encEntries : MistakeMap → List Char
  | [] => []
  | [e] => encEntry e
  | e :: e2 :: rest => encEntry e ++ [','] ++ encEntries (e2 :: rest)

/-- Canonical JSON text of a whole map. -/
def encMap (m : MistakeMap) : List Char := [obr] ++ encEntries m ++ [cbr]

/-- persistMistakes of the source: the text JSON.stringify writes under the
storage key (the stored value after a save). -/
def persistMistakes (m : MistakeMap) : String := ⟨encMap m⟩

/-- Value of a digit list read most significant first, with accumulator. -/
def digitsValAux (a : Nat) : List Char → Nat
  | [] => a
  | c :: cs => digitsValAux (a * 10 + (c.toNat - 48)) cs

/-- Parse a nonempty run of decimal digits greedily. -/
def parseNat (cs : List Char) : Option (Nat × List Char) :=
  match spanP Char.isDigit cs with
  | ([], _) => none
  | (d :: ds, rest) => some (digitsValAux 0 (d :: ds), rest)

/-- Parse an optionally negated decimal integer. -/
def parseInt (cs : List Char) : Option (Int × List Char) :=
  match cs with
  | [] => none
  | c :: rest =>
      if c = '-' then (parseNat rest).map (fun p => (-(p.1 : Int), p.2))
      else (parseNat (c :: rest)).map (fun p => ((p.1 : Int), p.2))

/-- Require an exact literal prefix and return what follows it. -/
def expectL : List Char → List Char → Option (List Char)
  | [], cs => some cs
  | _ :: _, [] => none
  | p :: ps, c :: cs => if p = c then expectL ps cs else none

/-- Parse a quoted string (no escape sequences in the canonical fragment):
everything up to the closing double quote. -/
def parseStr (cs : List Char) : Option (String × List Char) :=
  match cs with
  | [] => none
  | c :: rest =>
      if c = dq then
        match (spanP (fun c2 => decide (c2 ≠ dq)) rest).2 with
        | [] => none
        | _ :: r2 => some (⟨(spanP (fun c2 => decide (c2 ≠ dq)) rest).1⟩, r2)
      else none

/-- Parse a canonical MistakeRecord object. -/
def parseRecord (cs : List Char) : Option (MistakeRecord × List Char) :=
  match expectL ([obr, dq] ++ "count".data ++ [dq, ':']) cs with
  | none => none
  | some cs1 =>
      match parseInt cs1 with
      | none => none
      | some (cnt, cs2) =>
          match expectL ([',', dq] ++ "lastMissedAt".data ++ [dq, ':']) cs2 with
          | none => none
          | some cs3 =>
              match parseInt cs3 with
              | none => none
              | some (lma, cs4) =>
                  match cs4 with
                  | [] => none
                  | c :: cs5 =>
                      if c = cbr then some ({ count := cnt, lastMissedAt := lma }, cs5)
                      else none

/-- Parse one map entry: quoted key, colon, record. -/
def parseEntry (cs : List Char) : Option ((String × MistakeRecord) × List Char) :=
  match parseStr cs with
  | none => none
  | some (k, rest) =>
      match rest with
      | ':' :: rest2 => (parseRecord rest2).map (fun p => ((k, p.1), p.2))
      | _ => none

/-- Parse a comma-separated run of map entries; the fuel bounds the number
of entries (each consumes input). -/
def parseEntriesAux : Nat → List Char → Option (MistakeMap × List Char)
  | 0, _ => none
  | fuel + 1, cs =>
      match parseEntry cs with
      | none => none
      | some (e, rest) =>
          match rest with
          | [] => some ([e], [])
          | c :: rest2 =>
              if c = ',' then
                (parseEntriesAux fuel rest2).map (fun p => (e :: p.1, p.2))
              else some ([e], c :: rest2)

/-- Parse a canonical map: braces around nothing or around an entry run. -/
def parseMapChars (cs : List Char) : Option (MistakeMap × List Char) :=
  match cs with
  | [] => none
  | c :: rest =>
      if c = obr then
        match rest with
        | [] => none
        | c2 :: r2 =>
            if c2 = cbr then some ([], r2)
            else
              match parseEntriesAux rest.length rest with
              | none => none
              | some (es, r3) =>
                  match r3 with
                  | [] => none
                  | c3 :: r4 => if c3 = cbr then some (es, r4) else none
      else none

/-- Modelled JSON.parse of a stored blob: the whole text must parse as one
canonical map. -/
def parseMistakeMap (s : String) : Option MistakeMap :=
  match parseMapChars s.data with
  | some (m, []) => some m
  | _ => none

/-- loadMistakes of the source: empty map when nothing is stored; the parsed
map when the stored text parses; empty map (after logging) when parsing
fails. -/
def loadMistakes (stored : Option String) : MistakeMap :=
  match stored with
  | none => []
  | some raw =>
      match parseMistakeMap raw with
      | some m => m
      | none => []

/-- Key fit for the canonical JSON fragment: contains no double quote (the
modelled serializer writes no escapes).  Every key the app writes, of shape
clef:letterOctave, satisfies this. -/
def wfKey (s : String) : Prop := dq ∉ s.data

/-- All keys of a map are fit for the canonical JSON fragment. -/
def keysWF (m : MistakeMap) : Prop := ∀ e ∈ m, wfKey e.1

instance (s : String) : Decidable (wfKey s) :=
  inferInstanceAs (Decidable (dq ∉ s.data))

instance (m : MistakeMap) : Decidable (keysWF m) :=
  inferInstanceAs (Decidable (∀ e ∈ m, wfKey e.1))

/-!
Lemmas about the embedded JavaScript-object operations.
-/

theorem mget_mset_self (m : MistakeMap) (k : String) (v : MistakeRecord) :
    mget (mset m k v) k = some v := by
  induction m with
  | nil => simp [mset, mget]
  | cons p rest ih =>
      obtain ⟨k', v'⟩ := p
      by_cases h : k' = k
      · simp [mset, h, mget]
      · simp [mset, h, mget, ih]

theorem mget_some_mem {m : MistakeMap} {k : String} {e : MistakeRecord}
    (h : mget m k = some e) : (k, e) ∈ m := by
  induction m with
  | nil => simp [mget] at h
  | cons p rest ih =>
      obtain ⟨k', v'⟩ := p
      by_cases hk : k' = k
      · subst hk
        simp [mget] at h
        simp [h]
      · simp [mget, hk] at h
        exact List.mem_cons_of_mem _ (ih h)

theorem mem_mset {m : MistakeMap} {k : String} {v : MistakeRecord}
    {p : String × MistakeRecord} (h : p ∈ mset m k v) : p = (k, v) ∨ p ∈ m := by
  induction m with
  | nil => simpa [mset] using h
  | cons q rest ih =>
      obtain ⟨k', v'⟩ := q
      by_cases hk : k' = k
      · simp [mset, hk] at h
        rcases h with h | h
        · exact Or.inl h
        · exact Or.inr (List.mem_cons_of_mem _ h)
      · simp [mset, hk] at h
        rcases h with h | h
        · exact Or.inr (by simp [h])
        · rcases ih h with h' | h'
          · exact Or.inl h'
          · exact Or.inr (List.mem_cons_of_mem _ h')

theorem mem_mdel {m : MistakeMap} {k : String} {p : String × MistakeRecord}
    (h : p ∈ mdel m k) : p ∈ m := by
  induction m with
  | nil => simp [mdel] at h
  | cons q rest ih =>
      obtain ⟨k', v'⟩ := q
      by_cases hk : k' = k
      · simp [mdel, hk] at h
        exact List.mem_cons_of_mem _ h
      · simp [mdel, hk] at h
        rcases h with h | h
        · simp [h]
        · exact List.mem_cons_of_mem _ (ih h)

theorem countKey_eq_zero_of_mget_none {m : MistakeMap} {k : String}
    (h : mget m k = none) : countKey m k = 0 := by
  induction m with
  | nil => simp [countKey]
  | cons q rest ih =>
      obtain ⟨k', v'⟩ := q
      by_cases hk : k' = k
      · simp [mget, hk] at h
      · simp [mget, hk] at h
        simp [countKey, hk, ih h]

theorem mget_none_of_countKey_zero {m : MistakeMap} {k : String}
    (h : countKey m k = 0) : mget m k = none := by
  induction m with
  | nil => simp [mget]
  | cons q rest ih =>
      obtain ⟨k', v'⟩ := q
      by_cases hk : k' = k
      · simp [countKey, hk] at h
      · simp [countKey, hk] at h
        simpa [mget, hk] using ih h

theorem countKey_mset_le_one {m : MistakeMap} {k : String} (v : MistakeRecord)
    (h : countKey m k ≤ 1) : countKey (mset m k v) k ≤ 1 := by
  induction m with
  | nil => simp [mset, countKey]
  | cons q rest ih =>
      obtain ⟨k', v'⟩ := q
      by_cases hk : k' = k
      · simp [countKey, hk] at h ⊢
        simpa [mset, hk, countKey] using h
      · simp [countKey, hk] at h
        simpa [mset, hk, countKey] using ih h

theorem mget_mdel_self {m : MistakeMap} {k : String}
    (h : countKey m k ≤ 1) : mget (mdel m k) k = none := by
  induction m with
  | nil => simp [mdel, mget]
  | cons q rest ih =>
      obtain ⟨k', v'⟩ := q
      by_cases hk : k' = k
      · simp [countKey, hk] at h
        exact mget_none_of_countKey_zero (by simp [mdel, hk]; omega)
      · simp [countKey, hk] at h
        simpa [mdel, hk, mget] using ih h

theorem countsPos_recordMiss {m : MistakeMap} (k : String) (now : Int)
    (h : CountsPos m) : CountsPos (recordMiss m k now) := by
  intro p hp
  rcases mem_mset hp with hp' | hp'
  · subst hp'
    show 1 ≤ countOf m k + 1
    unfold countOf
    cases hm : mget m k with
    | none => simp
    | some e =>
        have h2 : 1 ≤ e.count := h _ (mget_some_mem hm)
        show 1 ≤ e.count + 1
        omega
  · exact h _ hp'

theorem countsPos_recordHit {m : MistakeMap} (k : String)
    (h : CountsPos m) : CountsPos (recordHit m k) := by
  intro p hp
  simp only [recordHit] at hp
  split at hp
  · exact h _ hp
  · rename_i e hm
    split at hp
    · split at hp
      · exact h _ (mem_mdel hp)
      · rcases mem_mset hp with hp' | hp'
        · subst hp'
          rename_i hne hle
          show 1 ≤ e.count - 1
          omega
        · exact h _ hp'
    · exact h _ hp

theorem countsPos_submitAnswer (s : AppState) (index : Nat) (now : Int)
    (h : CountsPos s.mistakes) : CountsPos (submitAnswer s index now).mistakes := by
  unfold submitAnswer
  split
  · exact h
  · rename_i question hq
    split
    · exact h
    · split
      · exact h
      · rename_i opt ho
        by_cases hc : opt.letter = question.note.letter
        · simp only [hc, ite_true]
          exact countsPos_recordHit _ h
        · simp only [hc, ite_false]
          exact countsPos_recordMiss _ _ h

theorem recordHit_eq_of_mget_none {m : MistakeMap} {k : String}
    (hnone : mget m k = none) : recordHit m k = m := by
  unfold recordHit
  rw [hnone]

theorem recordHit_eq_of_mget_some {m : MistakeMap} {k : String}
    {e : MistakeRecord} (hsome : mget m k = some e) :
    recordHit m k =
      if e.count ≠ 0 then
        if e.count - 1 ≤ 0 then mdel m k
        else mset m k { count := e.count - 1, lastMissedAt := e.lastMissedAt }
      else m := by
  unfold recordHit
  rw [hsome]

/-- C4: every mistake-ledger mutation preserves the invariant that an entry
present in the map has count at least 1 (no negative count, no persisting
zero entry), recordHit decrements an existing positive entry — deleting it
entirely when the decremented count reaches 0 — and is a no-op when the key
is absent; submitAnswer (the only caller of the two mutations) therefore
preserves the invariant as well. -/
theorem mistakeLedger_invariant (m : MistakeMap) (k : String) (now : Int)
    (e : MistakeRecord) (hpos : CountsPos m) :
    CountsPos (recordMiss m k now) ∧
    CountsPos (recordHit m k) ∧
    (∀ s index t, CountsPos (AppState.mistakes s) →
      CountsPos (AppState.mistakes (submitAnswer s index t))) ∧
    (mget m k = none → recordHit m k = m) ∧
    (mget m k = some e → countKey m k ≤ 1 →
      (e.count = 1 → mget (recordHit m k) k = none) ∧
      (1 < e.count →
        mget (recordHit m k) k = some ⟨e.count - 1, e.lastMissedAt⟩)) := by
  refine ⟨countsPos_recordMiss k now hpos, countsPos_recordHit k hpos,
    fun s index t hs => countsPos_submitAnswer s index t hs, ?_, ?_⟩
  · intro hnone
    exact recordHit_eq_of_mget_none hnone
  · intro hsome hkey
    constructor
    · intro hone
      have h1 : e.count ≠ 0 := by omega
      have h2 : e.count - 1 ≤ 0 := by omega
      rw [recordHit_eq_of_mget_some hsome, if_pos h1, if_pos h2]
      exact mget_mdel_self hkey
    · intro hgt
      have h1 : e.count ≠ 0 := by omega
      have h2 : ¬ e.count - 1 ≤ 0 := by omega
      rw [recordHit_eq_of_mget_some hsome, if_pos h1, if_neg h2]
      exact mget_mset_self m k _

/-- Witness for C4 at a concrete ledger: the key treble:C4 with count 2. -/
theorem mistakeLedger_invariant_witness :
    CountsPos (recordMiss [("treble:C4", ⟨2, 5⟩)] "treble:C4" 9) ∧
    CountsPos (recordHit [("treble:C4", ⟨2, 5⟩)] "treble:C4") ∧
    (∀ s index t, CountsPos (AppState.mistakes s) →
      CountsPos (AppState.mistakes (submitAnswer s index t))) ∧
    (mget [("treble:C4", ⟨2, 5⟩)] "treble:C4" = none →
      recordHit [("treble:C4", ⟨2, 5⟩)] "treble:C4" = [("treble:C4", ⟨2, 5⟩)]) ∧
    (mget [("treble:C4", ⟨2, 5⟩)] "treble:C4" = some ⟨2, 5⟩ →
      countKey [("treble:C4", ⟨2, 5⟩)] "treble:C4" ≤ 1 →
      ((⟨2, 5⟩ : MistakeRecord).count = 1 →
        mget (recordHit [("treble:C4", ⟨2, 5⟩)] "treble:C4") "treble:C4" = none) ∧
      (1 < (⟨2, 5⟩ : MistakeRecord).count →
        mget (recordHit [("treble:C4", ⟨2, 5⟩)] "treble:C4") "treble:C4" =
          some ⟨2 - 1, 5⟩)) :=
  mistakeLedger_invariant [("treble:C4", ⟨2, 5⟩)] "treble:C4" 9 ⟨2, 5⟩
    (by decide)

theorem mget_recordMiss_self (m : MistakeMap) (k : String) (t : Int) :
    mget (recordMiss m k t) k = some ⟨countOf m k + 1, t⟩ :=
  mget_mset_self m k _

theorem countOf_eq_of_mget_some {m : MistakeMap} {k : String} {e : MistakeRecord}
    (h : mget m k = some e) : countOf m k = e.count := by
  unfold countOf
  rw [h]
  rfl

theorem countOf_eq_of_mget_none {m : MistakeMap} {k : String}
    (h : mget m k = none) : countOf m k = 0 := by
  unfold countOf
  rw [h]
  rfl

theorem mget_recordMissN (m : MistakeMap) (k : String) (ts : Nat → Int) :
    ∀ n, 1 ≤ n →
      mget (recordMissN m k ts n) k = some ⟨countOf m k + n, ts (n - 1)⟩ := by
  intro n
  induction n with
  | zero => omega
  | succ n ih =>
      intro _
      by_cases hn : 1 ≤ n
      · have ihm := ih hn
        show mget (recordMiss (recordMissN m k ts n) k (ts n)) k = _
        rw [mget_recordMiss_self, countOf_eq_of_mget_some ihm]
        simp only [Nat.add_sub_cancel, Option.some.injEq, MistakeRecord.mk.injEq]
        refine ⟨by push_cast; ring, trivial⟩
      · have hn0 : n = 0 := by omega
        subst hn0
        show mget (recordMiss m k (ts 0)) k = _
        rw [mget_recordMiss_self]
        norm_num

theorem countKey_recordMissN_le_one {m : MistakeMap} {k : String}
    (ts : Nat → Int) (h : countKey m k ≤ 1) :
    ∀ n, countKey (recordMissN m k ts n) k ≤ 1 := by
  intro n
  induction n with
  | zero => exact h
  | succ n ih => exact countKey_mset_le_one _ ih

theorem countKey_mdel_le {m : MistakeMap} (k : String)
    (h : countKey m k ≤ 1) : countKey (mdel m k) k ≤ 1 := by
  induction m with
  | nil => simpa [mdel] using h
  | cons q rest ih =>
      obtain ⟨k', v'⟩ := q
      by_cases hk : k' = k
      · simp [countKey, hk] at h
        simp [mdel, hk]
        omega
      · simp [countKey, hk] at h
        simpa [mdel, hk, countKey] using ih h

theorem mget_recordHitN_absorb (k : String) :
    ∀ c : Nat, ∀ m : MistakeMap, ∀ e : MistakeRecord,
      mget m k = some e → e.count = ((c : Nat) : Int) + 1 → countKey m k ≤ 1 →
      mget (recordHitN m k (c + 1)) k = none := by
  intro c
  induction c with
  | zero =>
      intro m e hsome hcount hkey
      show mget (recordHitN (recordHit m k) k 0) k = none
      show mget (recordHit m k) k = none
      have h1 : e.count ≠ 0 := by omega
      have h2 : e.count - 1 ≤ 0 := by omega
      rw [recordHit_eq_of_mget_some hsome, if_pos h1, if_pos h2]
      exact mget_mdel_self hkey
  | succ c ih =>
      intro m e hsome hcount hkey
      have h1 : e.count ≠ 0 := by push_cast at hcount; omega
      have h2 : ¬ e.count - 1 ≤ 0 := by push_cast at hcount; omega
      have hstep : recordHit m k =
          mset m k { count := e.count - 1, lastMissedAt := e.lastMissedAt } := by
        rw [recordHit_eq_of_mget_some hsome, if_pos h1, if_neg h2]
      show mget (recordHitN (recordHit m k) k (c + 1)) k = none
      rw [hstep]
      refine ih (mset m k _) ⟨e.count - 1, e.lastMissedAt⟩ (mget_mset_self _ _ _) ?_
        (countKey_mset_le_one _ hkey)
      push_cast at hcount ⊢
      omega

/-- C5 counterexample: with a starting count of 1 ≥ 0 at the key, one
recordMiss followed by one recordHit leaves the entry present (back at its
starting record), so the ledger does not return to "not containing the key"
for every starting count ≥ 0. -/
theorem missThenHit_counterexample :
    mget
      (recordHitN
        (recordMissN [("treble:C4", ⟨1, 0⟩)] "treble:C4" (fun _ => 0) 1)
        "treble:C4" 1)
      "treble:C4" = some ⟨1, 0⟩ := by decide

/-- C5 amended: when the ledger does not contain the key (the starting count
is 0), performing recordMiss n times followed by recordHit n times (n ≥ 1)
returns the ledger to not containing that key: the count reaches exactly 0
and the entry is removed.  When the key starts with a positive count the
sequence merely restores that count (see the counterexample). -/
theorem missThenHit_restores_absent (m : MistakeMap) (k : String)
    (ts : Nat → Int) (n : Nat) (habs : mget m k = none) (hn : 1 ≤ n) :
    mget (recordHitN (recordMissN m k ts n) k n) k = none := by
  obtain ⟨c, rfl⟩ : ∃ c, n = c + 1 := ⟨n - 1, by omega⟩
  have hmiss := mget_recordMissN m k ts (c + 1) (by omega)
  rw [countOf_eq_of_mget_none habs] at hmiss
  have hkey : countKey (recordMissN m k ts (c + 1)) k ≤ 1 :=
    countKey_recordMissN_le_one ts
      (by rw [countKey_eq_zero_of_mget_none habs]; omega) (c + 1)
  refine mget_recordHitN_absorb k c _ ⟨0 + ((c : Int) + 1), ts (c + 1 - 1)⟩ ?_ ?_ hkey
  · simpa using hmiss
  · push_cast
    ring

/-- Witness for C5 at a concrete input: key treble:C4 absent from a ledger
holding another entry, two misses then two hits. -/
theorem missThenHit_restores_absent_witness :
    mget
      (recordHitN
        (recordMissN [("bass:E2", ⟨3, 1⟩)] "treble:C4" (fun i => (i : Int)) 2)
        "treble:C4" 2)
      "treble:C4" = none :=
  missThenHit_restores_absent [("bass:E2", ⟨3, 1⟩)] "treble:C4"
    (fun i => (i : Int)) 2 (by decide) (by decide)

theorem mem_inRangePool (lvl : Nat) (c : Clef) (n : NoteDefinition) :
    n ∈ inRangePool lvl c ↔
      (n ∈ NOTE_COLLECTIONS c ∧
        MIDDLE_C_MIDI - (lvl : Int) * 12 ≤
          n.octave * 12 + NOTE_LETTER_TO_SEMITONE n.letter ∧
        n.octave * 12 + NOTE_LETTER_TO_SEMITONE n.letter ≤
          MIDDLE_C_MIDI + (lvl : Int) * 12) := by
  unfold inRangePool isNoteWithinRange rangeBounds getNoteMidi
  rw [List.mem_filter]
  simp only [Bool.and_eq_true, decide_eq_true_eq]

/-- C7: the range filter keeps exactly the catalog notes whose pitch value
(octave times 12 plus the C=0, D=2, E=4, F=5, G=7, A=9, B=11 semitone class)
lies in the inclusive window middle C plus or minus span times 12; span 0
yields exactly the one note at middle C's pitch in each reference catalog
(C4 for both clefs), and a wider span keeps a superset of a narrower span's
notes (in particular span 2 of span 1). -/
theorem rangeFilter_spec (lvl lvl1 lvl2 : Nat) (hle : lvl1 ≤ lvl2) :
    (∀ c n, n ∈ inRangePool lvl c ↔
      (n ∈ NOTE_COLLECTIONS c ∧
        MIDDLE_C_MIDI - (lvl : Int) * 12 ≤
          n.octave * 12 + NOTE_LETTER_TO_SEMITONE n.letter ∧
        n.octave * 12 + NOTE_LETTER_TO_SEMITONE n.letter ≤
          MIDDLE_C_MIDI + (lvl : Int) * 12)) ∧
    inRangePool 0 Clef.treble = [createNote .C 4 5] ∧
    inRangePool 0 Clef.bass = [createNote .C 4 (-1)] ∧
    (∀ c, inRangePool lvl1 c ⊆ inRangePool lvl2 c) := by
  refine ⟨fun c n => mem_inRangePool lvl c n, by decide, by decide, ?_⟩
  intro c n hn
  rw [mem_inRangePool] at hn ⊢
  obtain ⟨h1, h2, h3⟩ := hn
  refine ⟨h1, ?_, ?_⟩ <;> omega

/-- Witness for C7: span 1 treble contains E4 and the span-2 pool keeps it. -/
theorem rangeFilter_spec_witness :
    createNote .E 4 4 ∈ inRangePool 2 Clef.treble :=
  (rangeFilter_spec 2 1 2 (by decide)).2.2.2 Clef.treble (by decide)

theorem mem_NOTE_LETTERS (l : NoteLetter) : l ∈ NOTE_LETTERS := by
  cases l <;> decide

theorem filter_ne_facts (c : NoteLetter) :
    (NOTE_LETTERS.filter (fun l => decide (l ≠ c))).length = 6 ∧
    (NOTE_LETTERS.filter (fun l => decide (l ≠ c))).Nodup ∧
    ∀ l ∈ NOTE_LETTERS.filter (fun l => decide (l ≠ c)), l ≠ c := by
  cases c <;> decide

/-- C3: for every correct letter and every pair of shuffle draws (each a
permutation of its input, as sort with any comparator is), buildOptionSet
returns exactly 4 options with pairwise distinct letters, exactly one of
which carries the correct letter; the distractor letters come from the full
7-letter alphabet minus the correct letter (the definition never consults
the range or the catalog), and every option's label is its letter. -/
theorem buildOptionSet_spec (correct : NoteLetter) (s1 s2 : Shuffle)
    (h1 : ∀ l, (s1 l).Perm l) (h2 : ∀ l, (s2 l).Perm l) :
    (buildOptionSet correct s1 s2).length = 4 ∧
    ((buildOptionSet correct s1 s2).map AnswerOption.letter).Nodup ∧
    (buildOptionSet correct s1 s2).countP (fun o => decide (o.letter = correct)) = 1 ∧
    ∀ o ∈ buildOptionSet correct s1 s2,
      o.label = letterStr o.letter ∧ o.letter ∈ NOTE_LETTERS := by
  classical
  obtain ⟨hlen6, hnodup6, hne6⟩ := filter_ne_facts correct
  set base := NOTE_LETTERS.filter (fun l => decide (l ≠ correct)) with hbase
  have perm1 : (s1 base).Perm base := h1 base
  set incorrect := (s1 base).take 3 with hinc
  have hsub : incorrect.Sublist (s1 base) := List.take_sublist 3 (s1 base)
  have hlen3 : incorrect.length = 3 := by
    rw [hinc, List.length_take, perm1.length_eq, hlen6]
    decide
  have hincnodup : incorrect.Nodup := hsub.nodup (perm1.nodup_iff.mpr hnodup6)
  have hincne : ∀ l ∈ incorrect, l ≠ correct := fun l hl =>
    hne6 l (perm1.mem_iff.mp (hsub.mem hl))
  have hincmem : ∀ l ∈ incorrect, l ∈ NOTE_LETTERS := fun l _ => mem_NOTE_LETTERS l
  have perm2 : (s2 (correct :: incorrect)).Perm (correct :: incorrect) :=
    h2 (correct :: incorrect)
  have hclnodup : (correct :: incorrect).Nodup := by
    refine List.nodup_cons.mpr ⟨fun hmem => hincne _ hmem rfl, hincnodup⟩
  have hcombnodup : (s2 (correct :: incorrect)).Nodup := perm2.nodup_iff.mpr hclnodup
  have hcomblen : (s2 (correct :: incorrect)).length = 4 := by
    rw [perm2.length_eq, List.length_cons, hlen3]
  have hcount : (s2 (correct :: incorrect)).countP (fun l => decide (l = correct)) = 1 := by
    rw [perm2.countP_eq, List.countP_cons]
    have hz : incorrect.countP (fun l => decide (l = correct)) = 0 := by
      rw [List.countP_eq_zero]
      intro l hl
      simpa using hincne l hl
    simp [hz]
  have hmapeq :
      (buildOptionSet correct s1 s2).map AnswerOption.letter = s2 (correct :: incorrect) := by
    have hcomp : (AnswerOption.letter ∘ fun letter =>
        ({ letter := letter, label := letterStr letter } : AnswerOption)) = id := rfl
    rw [buildOptionSet, List.map_map, hcomp, List.map_id]
  refine ⟨?_, ?_, ?_, ?_⟩
  · have := congrArg List.length hmapeq
    rwa [List.length_map, hcomblen] at this
  · rw [hmapeq]
    exact hcombnodup
  · rw [buildOptionSet, List.countP_map]
    exact hcount
  · intro o ho
    rw [buildOptionSet, List.mem_map] at ho
    obtain ⟨l, hl, rfl⟩ := ho
    exact ⟨rfl, mem_NOTE_LETTERS l⟩

/-- Witness for C3 with the identity shuffles and correct letter C. -/
theorem buildOptionSet_spec_witness :
    (buildOptionSet .C id id).length = 4 ∧
    ((buildOptionSet .C id id).map AnswerOption.letter).Nodup ∧
    (buildOptionSet .C id id).countP (fun o => decide (o.letter = .C)) = 1 ∧
    ∀ o ∈ buildOptionSet .C id id,
      o.label = letterStr o.letter ∧ o.letter ∈ NOTE_LETTERS :=
  buildOptionSet_spec .C id id (fun l => List.Perm.refl l) (fun l => List.Perm.refl l)

/-- C8: a recorded attempt increments total by exactly 1 and increments
correct by exactly 1 precisely when the selected option's letter equals the
question's letter; accuracy is round(correct / total * 100) whenever total
is positive and the null placeholder when total is 0. -/
theorem submitAnswer_scoring (s : AppState) (index : Nat) (now : Int)
    (q : Question) (opt : AnswerOption)
    (hq : s.question = some q) (hr : s.isRevealing = false)
    (ho : q.options[index]? = some opt) :
    (submitAnswer s index now).stats.total = s.stats.total + 1 ∧
    (submitAnswer s index now).stats.correct =
      s.stats.correct + (if opt.letter = q.note.letter then 1 else 0) ∧
    (∀ st : Stats, st.total ≠ 0 →
      accuracy st = some (round ((st.correct : ℚ) / (st.total : ℚ) * 100))) ∧
    (∀ st : Stats, st.total = 0 → accuracy st = none) ∧
    accuracy ⟨1, 1⟩ = some 100 ∧ accuracy ⟨1, 0⟩ = some 0 := by
  refine ⟨?_, ?_, ?_, ?_, ?_, ?_⟩
  · by_cases hc : opt.letter = q.note.letter <;>
      simp [submitAnswer, hq, hr, ho, hc]
  · by_cases hc : opt.letter = q.note.letter <;>
      simp [submitAnswer, hq, hr, ho, hc]
  · intro st hst
    unfold accuracy
    rw [if_neg hst]
  · intro st hst
    unfold accuracy
    rw [if_pos hst]
  · norm_num [accuracy]
  · norm_num [accuracy]

/-- Witness for C8: a state showing treble C4 with the correct option at
index 0, not revealing. -/
theorem submitAnswer_scoring_witness :
    (submitAnswer
      ⟨Mode.all, some (buildQuestion .treble (createNote .C 4 5) id id),
        none, none, ⟨0, 0⟩, [], false, 1⟩ 0 9).stats.total = (0 : Nat) + 1 ∧
    (submitAnswer
      ⟨Mode.all, some (buildQuestion .treble (createNote .C 4 5) id id),
        none, none, ⟨0, 0⟩, [], false, 1⟩ 0 9).stats.correct =
      (0 : Nat) + (if (AnswerOption.mk .C "C").letter =
        (buildQuestion .treble (createNote .C 4 5) id id).note.letter then 1 else 0) ∧
    (∀ st : Stats, st.total ≠ 0 →
      accuracy st = some (round ((st.correct : ℚ) / (st.total : ℚ) * 100))) ∧
    (∀ st : Stats, st.total = 0 → accuracy st = none) ∧
    accuracy ⟨1, 1⟩ = some 100 ∧ accuracy ⟨1, 0⟩ = some 0 :=
  submitAnswer_scoring
    ⟨Mode.all, some (buildQuestion .treble (createNote .C 4 5) id id),
      none, none, ⟨0, 0⟩, [], false, 1⟩ 0 9
    (buildQuestion .treble (createNote .C 4 5) id id) ⟨.C, "C"⟩
    rfl rfl rfl

/-- C10: while the reveal window is open or no question exists, submitting
an answer is a complete no-op — the whole state, hence session stats, the
mistake ledger, the selected index, the feedback and the current question,
is unchanged; and every successful submission raises isRevealing, so the
same question cannot be scored twice. -/
theorem submitAnswer_noop (s : AppState) (index : Nat) (now : Int)
    (h : s.question = none ∨ s.isRevealing = true) :
    submitAnswer s index now = s ∧
    (∀ s2 index2 now2 q2 opt2, AppState.question s2 = some q2 →
      AppState.isRevealing s2 = false →
      (Question.options q2)[index2]? = some opt2 →
      AppState.isRevealing (submitAnswer s2 index2 now2) = true) := by
  constructor
  · rcases h with hq | hr
    · simp [submitAnswer, hq]
    · cases hq : s.question with
      | none => simp [submitAnswer, hq]
      | some q => simp [submitAnswer, hq, hr]
  · intro s2 index2 now2 q2 opt2 hq2 hr2 ho2
    by_cases hc : opt2.letter = q2.note.letter <;>
      simp [submitAnswer, hq2, hr2, ho2, hc]

/-- Witness for C10: a revealing state with no question pending. -/
theorem submitAnswer_noop_witness :
    submitAnswer ⟨Mode.all, none, none, none, ⟨2, 1⟩, [], true, 1⟩ 0 0 =
      ⟨Mode.all, none, none, none, ⟨2, 1⟩, [], true, 1⟩ ∧
    (∀ s2 index2 now2 q2 opt2, AppState.question s2 = some q2 →
      AppState.isRevealing s2 = false →
      (Question.options q2)[index2]? = some opt2 →
      AppState.isRevealing (submitAnswer s2 index2 now2) = true) :=
  submitAnswer_noop ⟨Mode.all, none, none, none, ⟨2, 1⟩, [], true, 1⟩ 0 0
    (Or.inl rfl)

/-!
Lemmas about the question generator's draw and loop.
-/

theorem c4_mem_inRangePool (lvl : Nat) (c : Clef) :
    ∃ n, n ∈ inRangePool lvl c := by
  have hnn : (0 : Int) ≤ (lvl : Int) * 12 := by positivity
  cases c
  · refine ⟨createNote .C 4 5, ?_⟩
    rw [mem_inRangePool]
    refine ⟨by decide, ?_, ?_⟩ <;>
      · simp only [createNote, MIDDLE_C_MIDI, NOTE_LETTER_TO_SEMITONE]
        omega
  · refine ⟨createNote .C 4 (-1), ?_⟩
    rw [mem_inRangePool]
    refine ⟨by decide, ?_, ?_⟩ <;>
      · simp only [createNote, MIDDLE_C_MIDI, NOTE_LETTER_TO_SEMITONE]
        omega

theorem inRangePool_ne_nil (lvl : Nat) (c : Clef) : inRangePool lvl c ≠ [] := by
  obtain ⟨n, hn⟩ := c4_mem_inRangePool lvl c
  exact List.ne_nil_of_mem hn

theorem getD_mem_of_lt {α : Type} : ∀ (l : List α) (i : Nat) (d : α),
    i < l.length → l.getD i d ∈ l := by
  intro l
  induction l with
  | nil => intro i d h; simp at h
  | cons a t ih =>
      intro i d h
      cases i with
      | zero => simp
      | succ j =>
          rw [List.getD_cons_succ]
          exact List.mem_cons_of_mem _ (ih j d (by simpa using h))

theorem weightedEntries_mem {clef : Clef} {m : MistakeMap}
    {pool : List NoteDefinition} {n : NoteDefinition} {w : Int}
    (h : (n, w) ∈ weightedEntries clef m pool) :
    n ∈ pool ∧ ∃ e, mget m (getNoteKey clef n) = some e ∧ e.count ≠ 0 ∧ w = e.count := by
  unfold weightedEntries at h
  rw [List.mem_filterMap] at h
  obtain ⟨note, hmem, hfn⟩ := h
  split at hfn
  · rename_i e hg
    split at hfn
    · rename_i hz
      have hpair := Option.some.inj hfn
      have hn : note = n := congrArg Prod.fst hpair
      have hw : e.count = w := congrArg Prod.snd hpair
      subst hn
      exact ⟨hmem, e, hg, hz, hw.symm⟩
    · cases hfn
  · cases hfn

theorem weightedWalk_mem :
    ∀ (l : List (NoteDefinition × Int)) (t : ℚ) (n : NoteDefinition),
      weightedWalk l t = some n → ∃ w, (n, w) ∈ l := by
  intro l
  induction l with
  | nil => intro t n h; cases h
  | cons p rest ih =>
      intro t n h
      obtain ⟨n', w⟩ := p
      rw [weightedWalk] at h
      by_cases hc : t - (w : ℚ) ≤ 0
      · rw [if_pos hc] at h
        have := Option.some.inj h
        subst this
        exact ⟨w, by simp⟩
      · rw [if_neg hc] at h
        obtain ⟨w', hw⟩ := ih _ _ h
        exact ⟨w', List.mem_cons_of_mem _ hw⟩

theorem getLast?_mem {α : Type} :
    ∀ (l : List α) (x : α), l.getLast? = some x → x ∈ l := by
  intro l
  induction l with
  | nil => intro x h; cases h
  | cons a t ih =>
      intro x h
      cases t with
      | nil =>
          simp only [List.getLast?_singleton, Option.some.injEq] at h
          simp [h]
      | cons b t2 =>
          rw [List.getLast?_cons_cons] at h
          exact List.mem_cons_of_mem _ (ih x h)

theorem getLast?_cons_ne_none {α : Type} :
    ∀ (a : α) (t : List α), (a :: t).getLast? ≠ none := by
  intro a t
  induction t generalizing a with
  | nil => simp
  | cons b t2 ih => rw [List.getLast?_cons_cons]; exact ih b

theorem pickWeightedNote_some_mem {clef : Clef} {m : MistakeMap}
    {pool : List NoteDefinition} {r : ℚ} {n : NoteDefinition}
    (h : pickWeightedNote clef m pool r = some n) :
    ∃ w, (n, w) ∈ weightedEntries clef m pool := by
  unfold pickWeightedNote at h
  split at h
  · cases h
  · rename_i w0 ws he
    split at h
    · rename_i n' hw
      have := Option.some.inj h
      subst this
      obtain ⟨w, hmem⟩ := weightedWalk_mem _ _ _ hw
      exact ⟨w, he ▸ hmem⟩
    · rename_i hw
      cases hl : (w0 :: ws).getLast? with
      | none => rw [hl] at h; cases h
      | some p =>
          rw [hl] at h
          have hp := Option.some.inj h
          refine ⟨p.2, he ▸ ?_⟩
          have hm := getLast?_mem _ _ hl
          obtain ⟨p1, p2⟩ := p
          cases hp
          exact hm

theorem pickWeightedNote_ne_none {clef : Clef} {m : MistakeMap}
    {pool : List NoteDefinition} {r : ℚ}
    (h : weightedEntries clef m pool ≠ []) :
    pickWeightedNote clef m pool r ≠ none := by
  unfold pickWeightedNote
  split
  · rename_i he
    exact absurd he h
  · rename_i w0 ws he
    split
    · simp
    · rename_i hw
      cases hl : (w0 :: ws).getLast? with
      | none => exact absurd hl (getLast?_cons_ne_none w0 ws)
      | some p => simp [hl]

theorem attemptDraw_inv {lvl : Nat} {mode : Mode} {m : MistakeMap}
    {rand : RandomSource} {i : Nat} {clef : Clef} {note : NoteDefinition}
    (h : attemptDraw lvl mode m rand i = some (clef, note)) :
    clef = rand.clefChoice i ∧
    note ∈ inRangePool lvl clef ∧
    (mode = Mode.mistakes →
      weightedEntries clef m (inRangePool lvl clef) ≠ [] →
      ∃ e, mget m (getNoteKey clef note) = some e ∧ e.count ≠ 0) := by
  unfold attemptDraw at h
  split at h
  · cases h
  · rename_i n0 ns hp
    rw [Option.some.injEq, Prod.mk.injEq] at h
    obtain ⟨hclef, hnote⟩ := h
    subst hclef
    refine ⟨rfl, ?_, ?_⟩
    · rw [hp, ← hnote]
      split
      · rename_i n hpick
        split at hpick
        · obtain ⟨w, hw⟩ := pickWeightedNote_some_mem hpick
          exact (weightedEntries_mem hw).1
        · cases hpick
      · apply getD_mem_of_lt
        apply Nat.mod_lt
        simp
    · intro hmode hne
      rw [hp] at hne
      rw [← hnote]
      split
      · rename_i n hpick
        split at hpick
        · obtain ⟨w, hw⟩ := pickWeightedNote_some_mem hpick
          obtain ⟨hmem, e, hg, hz, hwe⟩ := weightedEntries_mem hw
          exact ⟨e, hg, hz⟩
        · cases hpick
      · rename_i hpick
        exfalso
        subst hmode
        exact pickWeightedNote_ne_none hne hpick

theorem attemptDraw_isSome (lvl : Nat) (mode : Mode) (m : MistakeMap)
    (rand : RandomSource) (i : Nat) :
    ∃ clef note, attemptDraw lvl mode m rand i = some (clef, note) := by
  unfold attemptDraw
  split
  · rename_i hp
    exact absurd hp (inRangePool_ne_nil lvl _)
  · exact ⟨_, _, rfl⟩

theorem prepLoop_invariant (lvl : Nat) (mode : Mode) (m : MistakeMap)
    (cur : Option (Clef × String)) (rand : RandomSource)
    (P : Question → Prop)
    (hbody : ∀ i clef note, attemptDraw lvl mode m rand i = some (clef, note) →
      P (buildQuestion clef note (rand.shuffle1 i) (rand.shuffle2 i))) :
    ∀ fuel attempts cand, (∀ q0, cand = some q0 → P q0) →
      ∀ q, prepLoop lvl mode m cur rand fuel attempts cand = some q → P q := by
  intro fuel
  induction fuel with
  | zero =>
      intro attempts cand hcand q hq
      exact hcand q hq
  | succ fuel ih =>
      intro attempts cand hcand q hq
      rw [prepLoop] at hq
      split at hq
      · split at hq
        · exact ih _ _ hcand q hq
        · rename_i clef note hd
          split at hq
          · have := Option.some.inj hq
            subst this
            exact hbody attempts clef note hd
          · refine ih _ _ ?_ q hq
            intro q0 h0
            have := Option.some.inj h0
            subst this
            exact hbody attempts clef note hd
      · exact hcand q hq

theorem prepLoop_isSome (lvl : Nat) (mode : Mode) (m : MistakeMap)
    (cur : Option (Clef × String)) (rand : RandomSource) :
    ∀ fuel attempts q0,
      ∃ q, prepLoop lvl mode m cur rand fuel attempts (some q0) = some q := by
  intro fuel
  induction fuel with
  | zero => intro attempts q0; exact ⟨q0, rfl⟩
  | succ fuel ih =>
      intro attempts q0
      rw [prepLoop]
      by_cases ha : attempts < 6
      · rw [if_pos ha]
        obtain ⟨clef, note, hd⟩ := attemptDraw_isSome lvl mode m rand attempts
        rw [hd]
        by_cases hc : cur ≠ some (clef, note.id) ∨ 5 ≤ attempts + 1
        · exact ⟨_, if_pos hc⟩
        · obtain ⟨q2, hq2⟩ := ih (attempts + 1)
            (buildQuestion clef note (rand.shuffle1 attempts) (rand.shuffle2 attempts))
          exact ⟨q2, (if_neg hc).trans hq2⟩
      · rw [if_neg ha]
        exact ⟨q0, rfl⟩

theorem prepareQuestion_isSome (lvl : Nat) (mode : Mode) (m : MistakeMap)
    (cur : Option (Clef × String)) (rand : RandomSource) :
    ∃ q, prepareQuestion lvl mode m cur rand = some q := by
  unfold prepareQuestion
  rw [prepLoop]
  rw [if_pos (by norm_num : (0 : Nat) < 6)]
  obtain ⟨clef, note, hd⟩ := attemptDraw_isSome lvl mode m rand 0
  rw [hd]
  by_cases hc : cur ≠ some (clef, note.id) ∨ 5 ≤ 0 + 1
  · exact ⟨_, if_pos hc⟩
  · obtain ⟨q2, hq2⟩ := prepLoop_isSome lvl mode m cur rand 5 1
      (buildQuestion clef note (rand.shuffle1 0) (rand.shuffle2 0))
    exact ⟨q2, (if_neg hc).trans hq2⟩

/-- C1 counterexample: the ledger holds the eligible in-range entry
treble:C4 with count 1, yet the stream that draws the bass clef makes the
weighted-mode generator return a note whose ledger entry does not exist
(count 0), because eligibility is only consulted per drawn clef. -/
theorem weightedMode_counterexample :
    availableMistakes [("treble:C4", ⟨1, 0⟩)] 1 ≠ [] ∧
    (prepareQuestion 1 Mode.mistakes [("treble:C4", ⟨1, 0⟩)] none
        (constSource .bass)).map
      (fun q => mget [("treble:C4", ⟨1, 0⟩)] (getNoteKey q.clef q.note)) =
      some none := by decide

/-- C1 amended: in weighted mode the generator always returns a note from
the in-range pool of the clef drawn in its final attempt, and whenever that
clef has an in-range note with ledger count above 0 the returned note's
ledger count is above 0; the uniform fallback over a clef's in-range pool
happens only when that clef has no in-range note with positive count.
Because the clef is re-randomized per attempt, an eligible entry on the
other clef does not prevent a uniform fallback (see the counterexample). -/
theorem weightedMode_pick (lvl : Nat) (m : MistakeMap)
    (cur : Option (Clef × String)) (rand : RandomSource) (q : Question)
    (hpos : CountsPos m)
    (hq : prepareQuestion lvl Mode.mistakes m cur rand = some q) :
    q.note ∈ inRangePool lvl q.clef ∧
    (weightedEntries q.clef m (inRangePool lvl q.clef) ≠ [] →
      0 < countOf m (getNoteKey q.clef q.note)) := by
  refine prepLoop_invariant lvl Mode.mistakes m cur rand
    (fun q2 => q2.note ∈ inRangePool lvl q2.clef ∧
      (weightedEntries q2.clef m (inRangePool lvl q2.clef) ≠ [] →
        0 < countOf m (getNoteKey q2.clef q2.note))) ?_ 6 0 none (by simp) q hq
  intro i clef note hd
  obtain ⟨hclef, hmem, hwev⟩ := attemptDraw_inv hd
  constructor
  · exact hmem
  · intro hne
    have hne' : weightedEntries clef m (inRangePool lvl clef) ≠ [] := hne
    obtain ⟨e, hg, hz⟩ := hwev rfl hne'
    show 0 < countOf m (getNoteKey clef note)
    rw [countOf_eq_of_mget_some hg]
    have hp : 1 ≤ e.count := hpos _ (mget_some_mem hg)
    omega

theorem pickWeightedNote_single (clef : Clef) (m : MistakeMap)
    (pool : List NoteDefinition) (n : NoteDefinition) (w : Int) (r : ℚ)
    (hwe : weightedEntries clef m pool = [(n, w)])
    (hr : r * (w : ℚ) - (w : ℚ) ≤ 0) :
    pickWeightedNote clef m pool r = some n := by
  simp only [pickWeightedNote, hwe, List.foldl_cons, List.foldl_nil, zero_add]
  rw [weightedWalk, if_pos hr]

/-- Witness for C1 at range level 0: the one eligible entry treble:C4 with
count 1 is picked by the weighted walk. -/
theorem weightedMode_pick_witness :
    (buildQuestion Clef.treble (createNote .C 4 5) id id).note ∈
      inRangePool 0 (buildQuestion Clef.treble (createNote .C 4 5) id id).clef ∧
    (weightedEntries (buildQuestion Clef.treble (createNote .C 4 5) id id).clef
        [("treble:C4", ⟨1, 0⟩)]
        (inRangePool 0 (buildQuestion Clef.treble (createNote .C 4 5) id id).clef) ≠ [] →
      0 < countOf [("treble:C4", ⟨1, 0⟩)]
        (getNoteKey (buildQuestion Clef.treble (createNote .C 4 5) id id).clef
          (buildQuestion Clef.treble (createNote .C 4 5) id id).note)) := by
  have hwe : weightedEntries Clef.treble [("treble:C4", ⟨1, 0⟩)]
      [createNote .C 4 5] = [(createNote .C 4 5, 1)] := by decide
  have hpick : pickWeightedNote Clef.treble [("treble:C4", ⟨1, 0⟩)]
      [createNote .C 4 5] 0 = some (createNote .C 4 5) :=
    pickWeightedNote_single _ _ _ _ 1 _ hwe (by norm_num)
  have hpool : inRangePool 0 Clef.treble = [createNote .C 4 5] := by decide
  have hd : attemptDraw 0 Mode.mistakes [("treble:C4", ⟨1, 0⟩)]
      (constSource .treble) 0 = some (Clef.treble, createNote .C 4 5) := by
    simp only [attemptDraw, constSource, hpool, hpick]
  have hq : prepareQuestion 0 Mode.mistakes [("treble:C4", ⟨1, 0⟩)] none
      (constSource .treble) =
      some (buildQuestion Clef.treble (createNote .C 4 5) id id) := by
    unfold prepareQuestion
    rw [prepLoop, if_pos (by norm_num : (0 : Nat) < 6), hd]
    exact if_pos (Or.inl (by simp))
  exact weightedMode_pick 0 [("treble:C4", ⟨1, 0⟩)] none (constSource .treble)
    (buildQuestion Clef.treble (createNote .C 4 5) id id) (by decide) hq

theorem prepLoop_repeat (lvl : Nat) (mode : Mode) (m : MistakeMap)
    (cur : Clef × String) (rand : RandomSource) :
    ∀ fuel attempts cand q,
      fuel + attempts = 6 →
      prepLoop lvl mode m (some cur) rand fuel attempts cand = some q →
      questionPair q = cur →
      ∀ i, attempts ≤ i → i < 5 →
        drawnPair lvl mode m rand i = some cur := by
  intro fuel
  induction fuel with
  | zero =>
      intro attempts cand q hfa hq hrep i hai hi5
      omega
  | succ fuel ih =>
      intro attempts cand q hfa hq hrep i hai hi5
      rw [prepLoop, if_pos (by omega : attempts < 6)] at hq
      split at hq
      · rename_i hd0
        obtain ⟨c2, n2, hd2⟩ := attemptDraw_isSome lvl mode m rand attempts
        rw [hd2] at hd0
        cases hd0
      · rename_i clef note hd
        split at hq
        · rename_i hcond
          have hqq := Option.some.inj hq
          have hpair : (clef, note.id) = cur := by
            rw [← hrep, ← hqq]
            rfl
          rcases hcond with hne | hb
          · exact absurd (congrArg some hpair.symm) hne
          · have hia : i = attempts := by omega
            subst hia
            rw [drawnPair, hd]
            simp [hpair]
        · rename_i hcond
          push_neg at hcond
          obtain ⟨heq, hlt⟩ := hcond
          have hpair : some cur = some (clef, note.id) := heq
          by_cases hia : i = attempts
          · subst hia
            rw [drawnPair, hd]
            simp [Option.some.inj hpair]
          · exact ih (attempts + 1) _ q (by omega) hq hrep i (by omega) hi5

/-- C2 amended: whenever a generator call returns the same (clef, note id)
pair as the previous question, every one of the five bounded attempts drew
exactly that pair — equivalently, if any attempt below the bound draws a
different pair, the result is not a repeat.  The repeat therefore occurs
exactly when the retry bound of five attempts is exhausted, which an
adversarial random stream can force even when the in-range pool holds 2 or
more (clef, note) pairs (see the counterexample), not only with a pool of
size 1. -/
theorem antiRepeat_spec (lvl : Nat) (mode : Mode) (m : MistakeMap)
    (cur : Clef × String) (rand : RandomSource) (q : Question)
    (hq : prepareQuestion lvl mode m (some cur) rand = some q)
    (hrep : questionPair q = cur) :
    ∀ i, i < 5 → drawnPair lvl mode m rand i = some cur :=
  fun i hi =>
    prepLoop_repeat lvl mode m cur rand 6 0 none q rfl hq hrep i (Nat.zero_le i) hi

/-- C2 counterexample: with range level 0 the in-range pool holds exactly 2
(clef, note) pairs (treble C4 and bass C4), yet the stream drawing treble
with note index 0 every time makes two consecutive generator calls return
the identical pair: the second call exhausts its five attempts and accepts
the repeat. -/
theorem antiRepeat_counterexample :
    (inRangePool 0 Clef.treble).length + (inRangePool 0 Clef.bass).length = 2 ∧
    (prepareQuestion 0 Mode.all [] none (constSource .treble)).map questionPair =
      some (Clef.treble, "C4") ∧
    (prepareQuestion 0 Mode.all [] (some (Clef.treble, "C4"))
        (constSource .treble)).map questionPair =
      some (Clef.treble, "C4") := by decide

/-- Witness for C2: under the adversarial all-treble stream the repeated
result implies the first bounded attempt drew the previous pair. -/
theorem antiRepeat_spec_witness :
    drawnPair 0 Mode.all [] (constSource .treble) 0 =
      some (Clef.treble, "C4") :=
  antiRepeat_spec 0 Mode.all [] (Clef.treble, "C4") (constSource .treble)
    (buildQuestion .treble (createNote .C 4 5) id id) (by decide) (by decide)
    0 (by decide)

/-- C9: changing the range setting always resets the practice mode to
uniform ('all') and immediately generates a fresh question through the
uniform-mode generator against the new range — even when weighted
('mistakes') mode was selected and eligible mistake entries exist within
the new range — and the fresh question clears the reveal window. -/
theorem rangeChange_resets_mode (s : AppState) (lvl : Nat)
    (rand : RandomSource) (_hmode : s.mode = Mode.mistakes)
    (_havail : availableMistakes s.mistakes lvl ≠ []) :
    (onRangeChange s lvl rand).mode = Mode.all ∧
    (onRangeChange s lvl rand).rangeLevel = lvl ∧
    ∃ q, prepareQuestion lvl Mode.all s.mistakes (s.question.map questionPair)
        rand = some q ∧
      (onRangeChange s lvl rand).question = some q ∧
      (onRangeChange s lvl rand).isRevealing = false := by
  obtain ⟨q, hq⟩ := prepareQuestion_isSome lvl Mode.all s.mistakes
    (s.question.map questionPair) rand
  simp only [onRangeChange, applyPrepared]
  rw [hq]
  exact ⟨rfl, rfl, q, rfl, rfl, rfl⟩

/-- Witness for C9: weighted mode selected with the eligible in-range entry
treble:C4 in the ledger; the range change still resets to uniform mode. -/
theorem rangeChange_resets_mode_witness :
    (onRangeChange
      ⟨Mode.mistakes, none, none, none, ⟨0, 0⟩, [("treble:C4", ⟨1, 0⟩)], false, 2⟩
      1 (constSource .treble)).mode = Mode.all ∧
    (onRangeChange
      ⟨Mode.mistakes, none, none, none, ⟨0, 0⟩, [("treble:C4", ⟨1, 0⟩)], false, 2⟩
      1 (constSource .treble)).rangeLevel = 1 ∧
    ∃ q, prepareQuestion 1 Mode.all [("treble:C4", ⟨1, 0⟩)]
        ((none : Option Question).map questionPair) (constSource .treble) = some q ∧
      (onRangeChange
        ⟨Mode.mistakes, none, none, none, ⟨0, 0⟩, [("treble:C4", ⟨1, 0⟩)], false, 2⟩
        1 (constSource .treble)).question = some q ∧
      (onRangeChange
        ⟨Mode.mistakes, none, none, none, ⟨0, 0⟩, [("treble:C4", ⟨1, 0⟩)], false, 2⟩
        1 (constSource .treble)).isRevealing = false :=
  rangeChange_resets_mode
    ⟨Mode.mistakes, none, none, none, ⟨0, 0⟩, [("treble:C4", ⟨1, 0⟩)], false, 2⟩
    1 (constSource .treble) rfl (by decide)

/-!
Round-trip of the modelled persistence serializer and parser.
-/

theorem spanP_sat (p : Char → Bool) :
    ∀ cs : List Char, ∀ c ∈ (spanP p cs).1, p c = true := by
  intro cs
  induction cs with
  | nil => intro c hc; simp [spanP] at hc
  | cons a t ih =>
      intro c hc
      by_cases hp : p a
      · rw [spanP] at hc
        rw [if_pos hp] at hc
        rcases List.mem_cons.mp hc with rfl | hc2
        · exact hp
        · exact ih c hc2
      · rw [spanP] at hc
        rw [if_neg hp] at hc
        simp at hc

theorem spanP_append (p : Char → Bool) (l rest : List Char)
    (hl : ∀ c ∈ l, p c = true)
    (hrest : ∀ h t, rest = h :: t → p h = false) :
    spanP p (l ++ rest) = (l, rest) := by
  induction l with
  | nil =>
      cases rest with
      | nil => simp [spanP]
      | cons h t =>
          have hh := hrest h t rfl
          simp [spanP, hh]
  | cons a l2 ih =>
      have ha : p a = true := hl a (by simp)
      have ih2 := ih (fun c hc => hl c (List.mem_cons_of_mem _ hc))
      rw [List.cons_append, spanP, if_pos ha, ih2]

theorem digitChar_isDigit : ∀ d, d < 10 → (digitChar d).isDigit = true := by
  decide

theorem digitChar_toNat : ∀ d, d < 10 → (digitChar d).toNat - 48 = d := by
  decide

theorem natDigitsAux_acc :
    ∀ fuel n acc, natDigitsAux fuel n acc = natDigitsAux fuel n [] ++ acc := by
  intro fuel
  induction fuel with
  | zero => intro n acc; simp [natDigitsAux]
  | succ fuel ih =>
      intro n acc
      by_cases hn : n < 10
      · simp [natDigitsAux, hn]
      · rw [natDigitsAux, if_neg hn, natDigitsAux, if_neg hn]
        rw [ih (n / 10) (digitChar (n % 10) :: acc), ih (n / 10) [digitChar (n % 10)]]
        simp

theorem natDigitsAux_ne_nil (fuel n : Nat) : natDigitsAux fuel n [] ≠ [] := by
  cases fuel with
  | zero => simp [natDigitsAux]
  | succ fuel =>
      by_cases hn : n < 10
      · simp [natDigitsAux, hn]
      · rw [natDigitsAux, if_neg hn, natDigitsAux_acc]
        simp

theorem natDigitsAux_digits :
    ∀ fuel n, n ≤ fuel → ∀ c ∈ natDigitsAux fuel n [], c.isDigit = true := by
  intro fuel
  induction fuel with
  | zero =>
      intro n hn c hc
      have hn0 : n = 0 := by omega
      subst hn0
      simp [natDigitsAux] at hc
      subst hc
      exact digitChar_isDigit 0 (by omega)
  | succ fuel ih =>
      intro n hn c hc
      by_cases h10 : n < 10
      · simp [natDigitsAux, h10] at hc
        subst hc
        exact digitChar_isDigit n h10
      · rw [natDigitsAux, if_neg h10, natDigitsAux_acc] at hc
        rcases List.mem_append.mp hc with hc2 | hc2
        · exact ih (n / 10) (by omega) c hc2
        · simp at hc2
          subst hc2
          exact digitChar_isDigit (n % 10) (by omega)

theorem digitsValAux_nil (a : Nat) : digitsValAux a [] = a := rfl

theorem digitsValAux_cons (a : Nat) (c : Char) (cs : List Char) :
    digitsValAux a (c :: cs) = digitsValAux (a * 10 + (c.toNat - 48)) cs := rfl

theorem digitsValAux_digits :
    ∀ fuel n, n ≤ fuel → ∀ a tail,
      digitsValAux a (natDigitsAux fuel n [] ++ tail) =
        digitsValAux (a * 10 ^ (natDigitsAux fuel n []).length + n) tail := by
  intro fuel
  induction fuel with
  | zero =>
      intro n hn a tail
      have hn0 : n = 0 := by omega
      subst hn0
      show digitsValAux a ([digitChar 0] ++ tail) =
        digitsValAux (a * 10 ^ ([digitChar 0]).length + 0) tail
      rw [List.singleton_append, digitsValAux_cons, digitChar_toNat 0 (by omega)]
      norm_num
  | succ fuel ih =>
      intro n hn a tail
      by_cases h10 : n < 10
      · rw [natDigitsAux, if_pos h10, List.singleton_append, digitsValAux_cons,
          digitChar_toNat n h10]
        norm_num
      · rw [natDigitsAux, if_neg h10, natDigitsAux_acc]
        have hdiv : n / 10 ≤ fuel := by omega
        rw [List.append_assoc, List.cons_append, List.nil_append]
        rw [ih (n / 10) hdiv a (digitChar (n % 10) :: tail)]
        rw [digitsValAux_cons, digitChar_toNat (n % 10) (by omega)]
        rw [List.length_append, List.length_singleton]
        have harith : ∀ L : Nat,
            (a * 10 ^ L + n / 10) * 10 + n % 10 = a * 10 ^ (L + 1) + n := by
          intro L
          calc (a * 10 ^ L + n / 10) * 10 + n % 10
              = a * (10 ^ L * 10) + (n / 10 * 10 + n % 10) := by ring
            _ = a * 10 ^ (L + 1) + n := by rw [Nat.div_add_mod', pow_succ]
        rw [harith ((natDigitsAux fuel (n / 10) []).length)]

theorem natDigits_ne_nil (n : Nat) : natDigits n ≠ [] := natDigitsAux_ne_nil n n

theorem natDigits_digits (n : Nat) : ∀ c ∈ natDigits n, c.isDigit = true :=
  natDigitsAux_digits n n le_rfl

theorem digitsVal_natDigits (n : Nat) : digitsValAux 0 (natDigits n) = n := by
  have h := digitsValAux_digits n n le_rfl 0 []
  rw [List.append_nil] at h
  rw [natDigits, h, digitsValAux_nil]
  simp

theorem parseNat_enc (n : Nat) (rest : List Char)
    (hrest : ∀ h t, rest = h :: t → h.isDigit = false) :
    parseNat (natDigits n ++ rest) = some (n, rest) := by
  unfold parseNat
  rw [spanP_append Char.isDigit (natDigits n) rest (natDigits_digits n) hrest]
  cases hd : natDigits n with
  | nil => exact absurd hd (natDigits_ne_nil n)
  | cons c cs =>
      show some (digitsValAux 0 (c :: cs), rest) = some (n, rest)
      rw [← hd, digitsVal_natDigits]

theorem parseInt_enc (z : Int) (rest : List Char)
    (hrest : ∀ h t, rest = h :: t → h.isDigit = false) :
    parseInt (encInt z ++ rest) = some (z, rest) := by
  unfold encInt
  by_cases hz : z < 0
  · rw [if_pos hz]
    show parseInt ('-' :: (natDigits z.natAbs ++ rest)) = some (z, rest)
    simp only [parseInt]
    rw [if_pos trivial, parseNat_enc z.natAbs rest hrest]
    simp only [Option.map_some']
    refine congrArg some (Prod.ext ?_ rfl)
    show -(z.natAbs : Int) = z
    omega
  · rw [if_neg hz]
    cases hd : natDigits z.toNat with
    | nil => exact absurd hd (natDigits_ne_nil z.toNat)
    | cons c cs2 =>
        have hcd : c.isDigit = true := natDigits_digits z.toNat c (by rw [hd]; simp)
        have hcne : c ≠ '-' := by
          intro hcc
          rw [hcc] at hcd
          exact absurd hcd (by decide)
        rw [List.cons_append]
        simp only [parseInt]
        rw [if_neg hcne, ← List.cons_append, ← hd,
          parseNat_enc z.toNat rest hrest]
        simp only [Option.map_some']
        refine congrArg some (Prod.ext ?_ rfl)
        show (z.toNat : Int) = z
        omega

theorem expectL_append : ∀ pat rest : List Char, expectL pat (pat ++ rest) = some rest := by
  intro pat
  induction pat with
  | nil => intro rest; rfl
  | cons p ps ih =>
      intro rest
      rw [List.cons_append, expectL, if_pos rfl]
      exact ih rest

theorem parseStr_enc (k : String) (rest : List Char) (hk : dq ∉ k.data) :
    parseStr (dq :: (k.data ++ dq :: rest)) = some (k, rest) := by
  have hspan : spanP (fun c2 => decide (c2 ≠ dq)) (k.data ++ dq :: rest) =
      (k.data, dq :: rest) := by
    refine spanP_append _ _ _ ?_ ?_
    · intro c hc
      simp only [decide_eq_true_eq]
      intro hcd
      exact hk (hcd ▸ hc)
    · intro h t ht
      injection ht with h1 h2
      rw [← h1]
      simp
  simp only [parseStr, if_pos rfl, hspan]
  rfl

theorem parseRecord_enc (r : MistakeRecord) (rest : List Char) :
    parseRecord (encRecord r ++ rest) = some (r, rest) := by
  have h1 : encRecord r ++ rest =
      ([obr, dq] ++ "count".data ++ [dq, ':']) ++
        (encInt r.count ++
          (([',', dq] ++ "lastMissedAt".data ++ [dq, ':']) ++
            (encInt r.lastMissedAt ++ (cbr :: rest)))) := by
    simp [encRecord, List.append_assoc]
  have hint1 : parseInt (encInt r.count ++
      (([',', dq] ++ "lastMissedAt".data ++ [dq, ':']) ++
        (encInt r.lastMissedAt ++ (cbr :: rest)))) =
      some (r.count,
        ([',', dq] ++ "lastMissedAt".data ++ [dq, ':']) ++
          (encInt r.lastMissedAt ++ (cbr :: rest))) := by
    refine parseInt_enc _ _ ?_
    intro h t ht
    have hh : h = ',' := by
      have := congrArg (fun l => l.head?) ht
      simpa using this.symm
    rw [hh]
    decide
  have hint2 : parseInt (encInt r.lastMissedAt ++ (cbr :: rest)) =
      some (r.lastMissedAt, cbr :: rest) := by
    refine parseInt_enc _ _ ?_
    intro h t ht
    have hh : h = cbr := by
      have := congrArg (fun l => l.head?) ht
      simpa using this.symm
    rw [hh]
    decide
  rw [parseRecord, h1]
  simp only [expectL_append, hint1, hint2]
  rfl

theorem parseEntry_enc (e : String × MistakeRecord) (rest : List Char)
    (hk : wfKey e.1) :
    parseEntry (encEntry e ++ rest) = some (e, rest) := by
  have h1 : encEntry e ++ rest =
      dq :: (e.1.data ++ dq :: (':' :: (encRecord e.2 ++ rest))) := by
    simp [encEntry, List.append_assoc]
  rw [h1, parseEntry, parseStr_enc e.1 _ hk]
  show (parseRecord (encRecord e.2 ++ rest)).map (fun p => ((e.1, p.1), p.2)) =
    some (e, rest)
  rw [parseRecord_enc]
  rfl

theorem parseEntriesAux_step (fuel : Nat) (cs : List Char)
    (e : String × MistakeRecord) (c : Char) (rest2 : List Char)
    (hp : parseEntry cs = some (e, c :: rest2)) :
    parseEntriesAux (fuel + 1) cs =
      if c = ',' then (parseEntriesAux fuel rest2).map (fun p => (e :: p.1, p.2))
      else some ([e], c :: rest2) := by
  rw [parseEntriesAux, hp]

theorem parseEntriesAux_last (fuel : Nat) (cs : List Char)
    (e : String × MistakeRecord) (hp : parseEntry cs = some (e, [])) :
    parseEntriesAux (fuel + 1) cs = some ([e], []) := by
  rw [parseEntriesAux, hp]

theorem parseEntriesAux_enc :
    ∀ (m : MistakeMap) (fuel : Nat) (rest : List Char),
      m ≠ [] → m.length ≤ fuel → keysWF m →
      (∀ h t, rest = h :: t → h ≠ ',') →
      parseEntriesAux fuel (encEntries m ++ rest) = some (m, rest) := by
  intro m
  induction m with
  | nil =>
      intro fuel rest hne
      exact absurd rfl hne
  | cons e m' ih =>
      intro fuel rest _ hlen hwf hrest
      cases fuel with
      | zero => simp at hlen
      | succ fuel =>
          cases m' with
          | nil =>
              rw [show encEntries [e] = encEntry e from rfl]
              cases rest with
              | nil =>
                  rw [List.append_nil]
                  exact parseEntriesAux_last fuel _ e
                    (by rw [← List.append_nil (encEntry e)]
                        exact parseEntry_enc e [] (hwf e (by simp)))
              | cons h t =>
                  have hh : h ≠ ',' := hrest h t rfl
                  rw [parseEntriesAux_step fuel _ e h t
                    (parseEntry_enc e (h :: t) (hwf e (by simp)))]
                  rw [if_neg hh]
          | cons e2 m'' =>
              have hasc : encEntries (e :: e2 :: m'') ++ rest =
                  encEntry e ++ (',' :: (encEntries (e2 :: m'') ++ rest)) := by
                rw [show encEntries (e :: e2 :: m'') =
                  encEntry e ++ [','] ++ encEntries (e2 :: m'') from rfl]
                simp [List.append_assoc]
              rw [hasc]
              rw [parseEntriesAux_step fuel _ e ',' (encEntries (e2 :: m'') ++ rest)
                (parseEntry_enc e _ (hwf e (by simp)))]
              rw [if_pos rfl]
              rw [ih fuel rest (by simp) (by simpa using hlen)
                (fun x hx => hwf x (List.mem_cons_of_mem _ hx)) hrest]
              rfl

theorem one_le_encEntry (e : String × MistakeRecord) : 1 ≤ (encEntry e).length := by
  simp [encEntry]

theorem length_le_encEntries : ∀ m : MistakeMap, m.length ≤ (encEntries m).length := by
  intro m
  induction m with
  | nil => simp [encEntries]
  | cons e m' ih =>
      cases m' with
      | nil =>
          have h1 := one_le_encEntry e
          rw [show encEntries [e] = encEntry e from rfl]
          simpa using h1
      | cons e2 m'' =>
          rw [show encEntries (e :: e2 :: m'') =
            encEntry e ++ [','] ++ encEntries (e2 :: m'') from rfl]
          have h1 := one_le_encEntry e
          simp only [List.length_append, List.length_cons, List.length_singleton]
          have h2 : (e2 :: m'').length ≤ (encEntries (e2 :: m'')).length := ih
          simp only [List.length_cons] at h2
          omega

theorem parseMapChars_enc (m : MistakeMap) (rest : List Char) (hwf : keysWF m) :
    parseMapChars (encMap m ++ rest) = some (m, rest) := by
  cases m with
  | nil =>
      show parseMapChars (obr :: cbr :: rest) = some ([], rest)
      rfl
  | cons e m' =>
      obtain ⟨t, hEt⟩ : ∃ t, encEntries (e :: m') = dq :: t := by
        cases m' <;> exact ⟨_, rfl⟩
      have h1 : encMap (e :: m') ++ rest =
          obr :: (dq :: (t ++ (cbr :: rest))) := by
        rw [show encMap (e :: m') = obr :: (encEntries (e :: m') ++ [cbr]) from by
          simp [encMap]]
        rw [hEt]
        simp [List.append_assoc]
      rw [h1]
      have hpe := parseEntriesAux_enc (e :: m')
        (dq :: (t ++ (cbr :: rest))).length (cbr :: rest) (by simp)
        (by
          have hl := length_le_encEntries (e :: m')
          rw [hEt] at hl
          simp only [List.length_cons, List.length_append] at hl ⊢
          omega)
        hwf
        (fun h t2 ht2 => by
          injection ht2 with hh _
          rw [← hh]
          decide)
      rw [hEt, List.cons_append] at hpe
      show (if dq = cbr then some ([], t ++ (cbr :: rest))
            else
              match parseEntriesAux (dq :: (t ++ (cbr :: rest))).length
                  (dq :: (t ++ (cbr :: rest))) with
              | none => none
              | some (es, r3) =>
                  match r3 with
                  | [] => none
                  | c3 :: r4 => if c3 = cbr then some (es, r4) else none) =
        some (e :: m', rest)
      rw [if_neg (by decide : ¬ dq = cbr), hpe]
      rfl

theorem parseMistakeMap_persist (m : MistakeMap) (hwf : keysWF m) :
    parseMistakeMap (persistMistakes m) = some m := by
  unfold parseMistakeMap persistMistakes
  have hdata : (String.mk (encMap m)).data = encMap m := rfl
  rw [hdata, show encMap m = encMap m ++ [] from by simp, parseMapChars_enc m [] hwf]

theorem parseStr_wf {cs : List Char} {k : String} {r : List Char}
    (h : parseStr cs = some (k, r)) : wfKey k := by
  unfold parseStr at h
  split at h
  · cases h
  · rename_i c rest
    split at h
    · split at h
      · cases h
      · rw [Option.some.injEq, Prod.mk.injEq] at h
        obtain ⟨hk, hr⟩ := h
        intro hmem
        rw [← hk] at hmem
        have hx := spanP_sat (fun c2 => decide (c2 ≠ dq)) rest dq hmem
        simp at hx
    · cases h

theorem parseEntry_wf {cs : List Char} {e : String × MistakeRecord}
    {r : List Char} (h : parseEntry cs = some (e, r)) : wfKey e.1 := by
  unfold parseEntry at h
  split at h
  · cases h
  · rename_i k rest hps
    split at h
    · rename_i rest2
      cases hpr : parseRecord rest2 with
      | none => rw [hpr] at h; cases h
      | some p =>
          rw [hpr] at h
          simp only [Option.map_some'] at h
          rw [Option.some.injEq, Prod.mk.injEq] at h
          obtain ⟨he, hr⟩ := h
          rw [← he]
          exact parseStr_wf hps
    · cases h

theorem parseEntriesAux_wf :
    ∀ (fuel : Nat) (cs : List Char) (m : MistakeMap) (r : List Char),
      parseEntriesAux fuel cs = some (m, r) → keysWF m := by
  intro fuel
  induction fuel with
  | zero => intro cs m r h; cases h
  | succ fuel ih =>
      intro cs m r h
      rw [parseEntriesAux] at h
      split at h
      · cases h
      · rename_i e rest hpe
        split at h
        · rw [Option.some.injEq, Prod.mk.injEq] at h
          obtain ⟨hm, hr⟩ := h
          rw [← hm]
          intro x hx
          simp at hx
          rw [hx]
          exact parseEntry_wf hpe
        · rename_i c rest2
          split at h
          · cases hpa : parseEntriesAux fuel rest2 with
            | none => rw [hpa] at h; cases h
            | some p =>
                rw [hpa] at h
                simp only [Option.map_some'] at h
                rw [Option.some.injEq, Prod.mk.injEq] at h
                obtain ⟨hm, hr⟩ := h
                rw [← hm]
                intro x hx
                rcases List.mem_cons.mp hx with rfl | hx2
                · exact parseEntry_wf hpe
                · exact ih rest2 p.1 p.2 (by rw [hpa]) x hx2
          · rw [Option.some.injEq, Prod.mk.injEq] at h
            obtain ⟨hm, hr⟩ := h
            rw [← hm]
            intro x hx
            simp at hx
            rw [hx]
            exact parseEntry_wf hpe

theorem parseMapChars_wf {cs : List Char} {m : MistakeMap} {r : List Char}
    (h : parseMapChars cs = some (m, r)) : keysWF m := by
  unfold parseMapChars at h
  split at h
  · cases h
  · rename_i c rest
    split at h
    · split at h
      · cases h
      · rename_i c2 r2
        split at h
        · rw [Option.some.injEq, Prod.mk.injEq] at h
          obtain ⟨hm, hr⟩ := h
          rw [← hm]
          intro x hx
          simp at hx
        · split at h
          · cases h
          · rename_i es r3 hpa
            split at h
            · cases h
            · rename_i c3 r4
              split at h
              · rw [Option.some.injEq, Prod.mk.injEq] at h
                obtain ⟨hm, hr⟩ := h
                rw [← hm]
                exact parseEntriesAux_wf (c2 :: r2).length (c2 :: r2) es
                  (c3 :: r4) hpa
              · cases h
    · cases h

theorem parseMistakeMap_wf {s : String} {m : MistakeMap}
    (h : parseMistakeMap s = some m) : keysWF m := by
  unfold parseMistakeMap at h
  split at h
  · rename_i m2 hpc
    have hm := Option.some.inj h
    rw [← hm]
    exact parseMapChars_wf hpc
  · cases h

/-- C6: persistence round-trips and recovers.  Load of an absent stored
value is the empty map; load of a malformed (unparseable) blob is the empty
map, returned rather than raised (the modelled load is a total function;
the log line is an I/O effect outside the model); persisting a ledger whose
keys fit the canonical fragment and loading it back yields a structurally
equal map; and save-after-load is a no-op on the observable mapping:
loading what was persisted from any load result equals that load result. -/
theorem persistence_roundtrip (m : MistakeMap) (st : Option String)
    (raw : String) (hwf : keysWF m) :
    loadMistakes none = [] ∧
    (parseMistakeMap raw = none → loadMistakes (some raw) = []) ∧
    parseMistakeMap (persistMistakes m) = some m ∧
    loadMistakes (some (persistMistakes (loadMistakes st))) = loadMistakes st := by
  refine ⟨rfl, ?_, parseMistakeMap_persist m hwf, ?_⟩
  · intro hp
    simp only [loadMistakes]
    rw [hp]
  · cases st with
    | none =>
        show loadMistakes (some (persistMistakes [])) = ([] : MistakeMap)
        simp only [loadMistakes]
        rw [parseMistakeMap_persist [] (by intro e he; cases he)]
    | some raw2 =>
        cases hp : parseMistakeMap raw2 with
        | none =>
            have hload : loadMistakes (some raw2) = [] := by
              simp only [loadMistakes]
              rw [hp]
            rw [hload]
            simp only [loadMistakes]
            rw [parseMistakeMap_persist [] (by intro e he; cases he)]
        | some m2 =>
            have hload : loadMistakes (some raw2) = m2 := by
              simp only [loadMistakes]
              rw [hp]
            rw [hload]
            simp only [loadMistakes]
            rw [parseMistakeMap_persist m2 (parseMistakeMap_wf hp)]

/-- Witness for C6 at a concrete non-empty ledger and a malformed blob. -/
theorem persistence_roundtrip_witness :
    loadMistakes none = [] ∧
    (parseMistakeMap "junk" = none → loadMistakes (some "junk") = []) ∧
    parseMistakeMap (persistMistakes [("treble:C4", ⟨2, 99⟩)]) =
      some [("treble:C4", ⟨2, 99⟩)] ∧
    loadMistakes (some (persistMistakes (loadMistakes (some "junk")))) =
      loadMistakes (some "junk") :=
  persistence_roundtrip [("treble:C4", ⟨2, 99⟩)] (some "junk") "junk" (by decide)
